import Mathlib

/-!
Shallow embedding of the cryptosim strategy engine and portfolio ledger.

This file embeds the core of the paper-trading simulator:

* the portfolio ledger `executeOrder` from `src/unnamed/part_010` (the current
  revision of `cryptosim-2/hooks/use-portfolio.ts`, which adds up-front balance
  checks and the zero-amount sell-out record);
* the moving-average strategy `executeMAStrategy` from
  `cryptosim-2/hooks/use-strategy-manager.ts` (second revision in that file,
  the one computing `prevShortMA`/`prevLongMA` over the shifted window);
* the crossover core of `executeMAStrategy` from `src/unnamed/part_009`
  (which stores the previous moving averages in a ref);
* `executeDCAStrategy` and `executeRSIStrategy` from `src/unnamed/part_008`.

JavaScript numbers are modelled as rationals (`ℚ`); the source only ever
performs field arithmetic on them.  Division by zero, which is `0` in `ℚ`,
is reached by the source only through zero periods or amounts and the
divergent IEEE behaviour there (`NaN`/`Infinity`) is called out where it
matters (`rsiZone` models the `avgLoss = 0` cases of the float code
explicitly; the moving-average theorems assume positive periods).
Millisecond clock readings (`Date.now()`) are integers.  The react state
`portfolio` and the ref `portfolioRef.current` are kept in sync by the hook
and are modelled as a single list; the module-level `transactionLog` map and
the per-hook `lastTransactionRef` ref are part of the ledger state.
-/

namespace CryptoSim

/-- Order side, the `type` argument of `executeOrder` (`"buy" | "sell"`). -/
inductive OrderType where
  | buy
  | sell
deriving DecidableEq

/-- A transaction record (`Transaction` in `types/portfolio.ts`).  The source
stores `new Date(now).toISOString()`; we keep the originating millisecond
clock value, an injective image of that string. -/
structure Tx where
  type : OrderType
  symbol : String
  amount : ℚ
  price : ℚ
  timestamp : ℤ
deriving DecidableEq

/-- A portfolio row (`PortfolioItem` in `types/portfolio.ts`). -/
structure PortfolioItem where
  symbol : String
  name : String
  amount : ℚ
  averagePrice : ℚ
  transactions : List Tx
deriving DecidableEq

/-- An entry of the module-level `transactionLog` map:
`{ timestamp: number, processed: boolean }`. -/
structure LogEntry where
  timestamp : ℤ
  processed : Bool
deriving DecidableEq

/-- The mutable state read and written by `executeOrder`: the portfolio
(state and ref, kept in sync by the hook), the per-hook `lastTransactionRef`
(initially `0`), and the module-level `transactionLog` keyed by the
transaction id string. -/
structure LedgerState where
  portfolio : List PortfolioItem
  lastTransaction : ℤ
  transactionLog : List (String × LogEntry)
deriving DecidableEq

/-- How a call to `executeOrder` exited.  The source function returns `void`;
these codes name its `return` sites: the 500 ms gate, the two balance
rejections, the processed-duplicate check, the `catch` block reached when an
indexed row is missing (`currentPortfolio[-1]` throws), and the committed
path that marks the log entry processed and stores the new portfolio. -/
inductive ExecResult where
  | committed
  | rateLimited
  | insufficientFunds
  | insufficientHoldings
  | duplicate
  | errored
deriving DecidableEq

/-- The string literal `"USD"`. -/
def usdSymbol : String := "USD"

/-- The string literal `"US Dollar"`. -/
def usdName : String := "US Dollar"

/-- The string literal `"-"` used in transaction ids. -/
def dash : String := "-"

/-- The string literal `"buy"`. -/
def buyWord : String := "buy"

/-- The string literal `"sell"`. -/
def sellWord : String := "sell"

/-- The `item.symbol === s` test used by `find`/`findIndex` in the source. -/
def isSym (s : String) (it : PortfolioItem) : Bool := it.symbol == s

/-- Replace the first element satisfying `q` by its image under `f`.  This is
the `findIndex` + in-place mutation idiom used throughout `executeOrder`
(mutations never reorder the array). -/
def modifyFirst {α : Type} (q : α → Bool) (f : α → α) : List α → List α
  | [] => []
  | x :: xs => if q x then f x :: xs else x :: modifyFirst q f xs

/-- Remove the first element satisfying `q` (`splice(index, 1)`). -/
def eraseFirst {α : Type} (q : α → Bool) : List α → List α
  | [] => []
  | x :: xs => if q x then xs else x :: eraseFirst q xs

/-- The map read `transactionLog.get(key)`. -/
def logGet (log : List (String × LogEntry)) (k : String) : Option LogEntry :=
  (log.find? (fun p => p.1 == k)).map Prod.snd

/-- The map write `transactionLog.set(key, v)`: a JavaScript `Map` has unique keys, so the
association list stays keyed by the first occurrence. -/
def logSet (log : List (String × LogEntry)) (k : String) (v : LogEntry) :
    List (String × LogEntry) :=
  (k, v) :: log.filter (fun p => ¬ p.1 == k)

/-- The map removal `transactionLog.delete(key)`. -/
def logDelete (log : List (String × LogEntry)) (k : String) :
    List (String × LogEntry) :=
  log.filter (fun p => ¬ p.1 == k)

/-- The transaction id template literal
`` `${type}-${symbol}-${amount}-${price}-${now}` ``. -/
def txKey (ty : OrderType) (symbol : String) (amount price : ℚ) (now : ℤ) :
    String :=
  (match ty with | .buy => buyWord | .sell => sellWord) ++ dash ++ symbol
    ++ dash ++ toString amount ++ dash ++ toString price ++ dash ++ toString now

/-- The `type === "buy"` branch of `executeOrder` (`part_010` lines 184-213):
debit the USD row by `amount * price`, append the transaction to it, then
either push a new asset row or update the existing one with the
weighted-average price formula. -/
def buyUpdate (symbol : String) (amount price : ℚ) (tx : Tx)
    (p : List PortfolioItem) : List PortfolioItem :=
  let totalCost := amount * price
  let p1 := modifyFirst (isSym usdSymbol)
    (fun it => { it with amount := it.amount - totalCost,
                         transactions := it.transactions ++ [tx] }) p
  if (p.find? (isSym symbol)).isNone then
    p1 ++ [⟨symbol, symbol, amount, price, [tx]⟩]
  else
    modifyFirst (isSym symbol)
      (fun it =>
        { it with amount := it.amount + amount,
                  averagePrice :=
                    (it.amount * it.averagePrice + amount * price)
                      / (it.amount + amount),
                  transactions := it.transactions ++ [tx] }) p1

/-- The `type === "sell"` branch of `executeOrder` (`part_010` lines
214-238): credit the USD row with `amount * price` and append the
transaction to it; then, reading the asset row after that mutation, either
splice it out and push a zero-amount record keeping its transactions (full
sale) or reduce its amount (partial sale).  The returned flag is `false`
when the asset row is absent: there `currentPortfolio[-1]` throws after the
USD mutation has already happened through the shared row object, and the
`catch` block commits nothing further. -/
def sellUpdate (symbol : String) (amount price : ℚ) (tx : Tx)
    (p : List PortfolioItem) : List PortfolioItem × Bool :=
  let saleProceeds := amount * price
  let p1 := modifyFirst (isSym usdSymbol)
    (fun it => { it with amount := it.amount + saleProceeds,
                         transactions := it.transactions ++ [tx] }) p
  match p1.find? (isSym symbol) with
  | none => (p1, false)
  | some assetItem =>
    if assetItem.amount = amount then
      (eraseFirst (isSym symbol) p1
        ++ [⟨symbol, symbol, 0, 0, assetItem.transactions ++ [tx]⟩], true)
    else
      (modifyFirst (isSym symbol)
        (fun it => { it with amount := it.amount - amount,
                             transactions := it.transactions ++ [tx] }) p1, true)

/-- The ledger operation `executeOrder` from `src/unnamed/part_010` lines 132-253.
In source order: the 500 ms spacing gate against `lastTransactionRef`; the
balance pre-checks (`totalCost > usdBalance` rejects a buy, `amount >
cryptoBalance` rejects a sell, both balances defaulting to `0` for a missing
row); the processed-duplicate check on the transaction id; then the log
entry is recorded, `lastTransactionRef` is set to `now`, and the portfolio
mutation runs inside `try`.  A missing USD row makes the first mutation line
throw (modelled as `errored` with the log entry deleted by the `catch`); on
success the entry is marked processed and the new portfolio stored.  The
`user` guard is outside the model (a logged-in user is assumed). -/
def executeOrder (ty : OrderType) (symbol : String) (amount price : ℚ)
    (now : ℤ) (st : LedgerState) : LedgerState × ExecResult :=
  if now - st.lastTransaction < 500 then (st, .rateLimited)
  else
    let usdBalance :=
      ((st.portfolio.find? (isSym usdSymbol)).map PortfolioItem.amount).getD 0
    let cryptoBalance :=
      ((st.portfolio.find? (isSym symbol)).map PortfolioItem.amount).getD 0
    let totalCost := amount * price
    if ty = OrderType.buy ∧ totalCost > usdBalance then
      (st, .insufficientFunds)
    else if ty = OrderType.sell ∧ amount > cryptoBalance then
      (st, .insufficientHoldings)
    else
      let tid := txKey ty symbol amount price now
      if ((logGet st.transactionLog tid).map LogEntry.processed).getD false then
        (st, .duplicate)
      else
        let log1 := logSet st.transactionLog tid ⟨now, false⟩
        let tx : Tx := ⟨ty, symbol, amount, price, now⟩
        if (st.portfolio.find? (isSym usdSymbol)).isNone then
          (⟨st.portfolio, now, logDelete log1 tid⟩, .errored)
        else
          match ty with
          | .buy =>
            (⟨buyUpdate symbol amount price tx st.portfolio, now,
              logSet log1 tid ⟨now, true⟩⟩, .committed)
          | .sell =>
            let res := sellUpdate symbol amount price tx st.portfolio
            if res.2 then
              (⟨res.1, now, logSet log1 tid ⟨now, true⟩⟩, .committed)
            else
              (⟨res.1, now, logDelete log1 tid⟩, .errored)

/-- The source constant `INITIAL_PORTFOLIO`: a single USD row of `10000` at average price `1`. -/
def initialPortfolio : List PortfolioItem :=
  [⟨usdSymbol, usdName, 10000, 1, []⟩]

/-- A fresh ledger: initial portfolio, `lastTransactionRef.current = 0`, and
an empty `transactionLog`. -/
def initialState : LedgerState := ⟨initialPortfolio, 0, []⟩

/-- The amount of the first USD row of a portfolio, `0` when absent —
`portfolio.find(item => item.symbol === "USD")?.amount || 0` up to the
falsy-zero coercion, which is the identity on the amount. -/
def usdAmount (p : List PortfolioItem) : ℚ :=
  ((p.find? (isSym usdSymbol)).map PortfolioItem.amount).getD 0

/-- The amount of the first row of the given symbol, `0` when absent. -/
def symAmount (s : String) (p : List PortfolioItem) : ℚ :=
  ((p.find? (isSym s)).map PortfolioItem.amount).getD 0

/-- Run a list of buy orders `(amount, price, now)` for one symbol through
the ledger, keeping the state of each call (the strategy loop submits orders
one at a time). -/
def runBuys (symbol : String) (orders : List (ℚ × ℚ × ℤ)) (st : LedgerState) :
    LedgerState :=
  orders.foldl (fun s o => (executeOrder .buy symbol o.1 o.2.1 o.2.2 s).1) st

/-- Every order of the list is committed by the ledger when submitted in
sequence from `st`. -/
def allCommitted (symbol : String) : List (ℚ × ℚ × ℤ) → LedgerState → Prop
  | [], _ => True
  | o :: rest, st =>
    (executeOrder .buy symbol o.1 o.2.1 o.2.2 st).2 = .committed ∧
      allCommitted symbol rest (executeOrder .buy symbol o.1 o.2.1 o.2.2 st).1

instance (symbol : String) (orders : List (ℚ × ℚ × ℤ)) (st : LedgerState) :
    Decidable (allCommitted symbol orders st) := by
  induction orders generalizing st with
  | nil => exact .isTrue trivial
  | cons o rest ih => exact @instDecidableAnd _ _ _ (ih _)

/-! ## Strategy detectors -/

/-- A trading signal. -/
inductive Signal where
  | buy
  | sell
  | hold
deriving DecidableEq

/-- The slice `prices.slice(-n)`: the last `n` entries, the whole list when it is
shorter.  (`slice(-0)` would be the whole list in JavaScript; the detectors
only call this with positive periods.) -/
def lastN {α : Type} (n : ℕ) (l : List α) : List α := l.drop (l.length - n)

/-- The helper `calculateMovingAverage` from `cryptosim-2/hooks/use-strategy-manager.ts`:
`0` when fewer than `period` prices are available, otherwise the mean of the
last `period` prices. -/
def calculateMovingAverage (prices : List ℚ) (period : ℕ) : ℚ :=
  if prices.length < period then 0
  else (lastN period prices).sum / (period : ℚ)

/-- The hook function `executeMAStrategy` from `cryptosim-2/hooks/use-strategy-manager.ts`
(the revision computing `prevShortMA`/`prevLongMA`), as a function of the
accumulated price history.  First component: the signal passed on to
`executeOrder` (`hold` means no order).  Second component: whether
`setLastExecution` ran — the early return on short history skips it, but
once the moving averages are computed it runs, signal or not. -/
def executeMAStrategy (history : List ℚ) (shortPeriod longPeriod : ℕ) :
    Signal × Bool :=
  if history.length < longPeriod then (.hold, false)
  else
    let shortMA := calculateMovingAverage history shortPeriod
    let longMA := calculateMovingAverage history longPeriod
    let prevShortMA := calculateMovingAverage history.dropLast shortPeriod
    let prevLongMA := calculateMovingAverage history.dropLast longPeriod
    if shortMA > longMA ∧ prevShortMA ≤ prevLongMA then (.buy, true)
    else if shortMA < longMA ∧ prevShortMA ≥ prevLongMA then (.sell, true)
    else (.hold, true)

/-- The crossover core of `executeMAStrategy` from `src/unnamed/part_009`
lines 159-200, as a function of the stored previous moving averages (absent
on the very first evaluation) and the freshly computed ones.  First
component: the signal.  Second component: whether the execution time was
advanced — there `setLastExecution` runs only inside the two trade
branches. -/
def executeMAStrategyP9 (prevShortMA prevLongMA : Option ℚ)
    (shortMA longMA : ℚ) : Signal × Bool :=
  match prevShortMA, prevLongMA with
  | some ps, some pl =>
    let wasAbove : Bool := decide (ps > pl)
    let isAbove : Bool := decide (shortMA > longMA)
    if wasAbove ≠ isAbove then
      if isAbove then (.buy, true) else (.sell, true)
    else (.hold, false)
  | _, _ => (.hold, false)

/-- The hook function `executeDCAStrategy` from `src/unnamed/part_008` lines 98-127, as a
function of the asset's current price (`none` when `cryptoData` has no entry
for the symbol) and the configured amount.  First component: the submitted
buy order `(amount / price, price)`, `none` when the guard
`!cryptoInfo || amount <= 0` returns early.  Second component: whether
`setLastExecution` ran — it does after every order submission, but the early
return skips it. -/
def executeDCAStrategy (currentPrice : Option ℚ) (amount : ℚ) :
    Option (ℚ × ℚ) × Bool :=
  match currentPrice with
  | none => (none, false)
  | some price =>
    if amount ≤ 0 then (none, false)
    else (some (amount / price, price), true)

/-- The consecutive price differences `prices[i] - prices[i-1]`. -/
def priceChanges : List ℚ → List ℚ
  | a :: b :: rest => (b - a) :: priceChanges (b :: rest)
  | _ => []

/-- The quantity `avgGain` of `executeRSIStrategy`: the summed positive changes over
`period`. -/
def rsiAvgGain (prices : List ℚ) (period : ℕ) : ℚ :=
  ((priceChanges prices).filter (fun c => decide (0 < c))).sum / (period : ℚ)

/-- The quantity `avgLoss` of `executeRSIStrategy`: the absolute value of the summed
negative changes over `period`. -/
def rsiAvgLoss (prices : List ℚ) (period : ℕ) : ℚ :=
  |((priceChanges prices).filter (fun c => decide (c < 0))).sum| / (period : ℚ)

/-- The zone classification of `executeRSIStrategy` (`1` overbought, `-1`
oversold, `0` normal).  The float code computes
`rsi = 100 - 100/(1 + avgGain/avgLoss)` and runs
`rsi >= overbought ? 1 : rsi <= oversold ? -1 : 0`; when `avgLoss` is `0`
that division yields `Infinity` (so `rsi = 100`) for a positive `avgGain`
and `NaN` (both comparisons false, zone `0`) when `avgGain` is also `0`.
Those two escape cases are spelled out here because `ℚ` has no infinities. -/
def rsiZone (avgGain avgLoss overbought oversold : ℚ) : ℤ :=
  if avgLoss = 0 then
    if 0 < avgGain then
      if (100 : ℚ) ≥ overbought then 1
      else if (100 : ℚ) ≤ oversold then -1
      else 0
    else 0
  else
    let rsi := 100 - 100 / (1 + avgGain / avgLoss)
    if rsi ≥ overbought then 1 else if rsi ≤ oversold then -1 else 0

/-- The hook function `executeRSIStrategy` from `src/unnamed/part_008` lines 207-287, as a
function of the price window and the stored previous state
(`lastExecutionTimeRef.current[id + "_rsi_state"] || 0`).  With fewer than
`period + 1` prices it returns early, leaving the state untouched;
otherwise the current zone is always stored, and a trade fires only when
the zone changed: entering `-1` buys, entering `1` sells, entering `0`
trades nothing. -/
def executeRSIStrategy (recentPrices : List ℚ) (period : ℕ)
    (overbought oversold : ℚ) (previousState : ℤ) : Signal × ℤ :=
  if recentPrices.length < period + 1 then (.hold, previousState)
  else
    let currentState :=
      rsiZone (rsiAvgGain recentPrices period) (rsiAvgLoss recentPrices period)
        overbought oversold
    if previousState ≠ currentState then
      (if currentState = -1 then Signal.buy
       else if currentState = 1 then Signal.sell
       else Signal.hold, currentState)
    else (.hold, currentState)

/-- The zone an evaluation computes: `none` when the price window is too
short to get past the early return. -/
def rsiEvalZone (recentPrices : List ℚ) (period : ℕ)
    (overbought oversold : ℚ) : Option ℤ :=
  if recentPrices.length < period + 1 then none
  else
    some (rsiZone (rsiAvgGain recentPrices period)
      (rsiAvgLoss recentPrices period) overbought oversold)

/-- The signals of a sequence of RSI evaluations, threading the stored
zone through. -/
def rsiSignals (period : ℕ) (overbought oversold : ℚ) :
    List (List ℚ) → ℤ → List Signal
  | [], _ => []
  | e :: rest, st =>
    (executeRSIStrategy e period overbought oversold st).1 ::
      rsiSignals period overbought oversold rest
        (executeRSIStrategy e period overbought oversold st).2

/-- The string literal `"BTC"`. -/
def btcSymbol : String := "BTC"

/-! ## Lemmas about the list primitives -/

theorem modifyFirst_cons_pos {α : Type} {q : α → Bool} (f : α → α) {a : α}
    (as : List α) (h : q a = true) :
    modifyFirst q f (a :: as) = f a :: as := by
  simp [modifyFirst, h]

theorem modifyFirst_cons_neg {α : Type} {q : α → Bool} (f : α → α) {a : α}
    (as : List α) (h : q a = false) :
    modifyFirst q f (a :: as) = a :: modifyFirst q f as := by
  simp [modifyFirst, h]

theorem eraseFirst_cons_pos {α : Type} {q : α → Bool} {a : α}
    (as : List α) (h : q a = true) : eraseFirst q (a :: as) = as := by
  simp [eraseFirst, h]

theorem eraseFirst_cons_neg {α : Type} {q : α → Bool} {a : α}
    (as : List α) (h : q a = false) :
    eraseFirst q (a :: as) = a :: eraseFirst q as := by
  simp [eraseFirst, h]

theorem modifyFirst_of_find?_none {α : Type} (q : α → Bool) (f : α → α) :
    ∀ l : List α, l.find? q = none → modifyFirst q f l = l := by
  intro l h
  induction l with
  | nil => rfl
  | cons a as ih =>
    rcases List.find?_eq_none.mp h with hall
    have hqa : q a = false := by
      have := hall a (by simp)
      simpa using this
    have has : as.find? q = none :=
      List.find?_eq_none.mpr fun x hx => hall x (List.mem_cons_of_mem _ hx)
    rw [modifyFirst_cons_neg f as hqa, ih has]

theorem find?_modifyFirst_self {α : Type} (q : α → Bool) (f : α → α)
    (hf : ∀ x, q (f x) = q x) :
    ∀ l : List α, (modifyFirst q f l).find? q = (l.find? q).map f := by
  intro l
  induction l with
  | nil => rfl
  | cons a as ih =>
    by_cases hqa : q a = true
    · rw [modifyFirst_cons_pos f as hqa,
        List.find?_cons_of_pos _ (by rw [hf]; exact hqa),
        List.find?_cons_of_pos _ hqa, Option.map_some']
    · have hqa' : ¬ q a = true := hqa
      rw [modifyFirst_cons_neg f as (by simpa using hqa),
        List.find?_cons_of_neg _ hqa', List.find?_cons_of_neg _ hqa', ih]

theorem find?_modifyFirst_of_ne {α : Type} (p q : α → Bool) (f : α → α)
    (hq : ∀ x, q x = true → p x = false) (hf : ∀ x, p (f x) = p x) :
    ∀ l : List α, (modifyFirst q f l).find? p = l.find? p := by
  intro l
  induction l with
  | nil => rfl
  | cons a as ih =>
    by_cases hqa : q a = true
    · have hpa : p a = false := hq a hqa
      rw [modifyFirst_cons_pos f as hqa,
        List.find?_cons_of_neg _ (by rw [hf, hpa]; simp),
        List.find?_cons_of_neg _ (by rw [hpa]; simp)]
    · rw [modifyFirst_cons_neg f as (by simpa using hqa)]
      by_cases hpa : p a = true
      · rw [List.find?_cons_of_pos _ hpa, List.find?_cons_of_pos _ hpa]
      · rw [List.find?_cons_of_neg _ hpa, List.find?_cons_of_neg _ hpa, ih]

theorem find?_eraseFirst_of_ne {α : Type} (p q : α → Bool)
    (hq : ∀ x, q x = true → p x = false) :
    ∀ l : List α, (eraseFirst q l).find? p = l.find? p := by
  intro l
  induction l with
  | nil => rfl
  | cons a as ih =>
    by_cases hqa : q a = true
    · have hpa : p a = false := hq a hqa
      rw [eraseFirst_cons_pos as hqa,
        List.find?_cons_of_neg _ (by rw [hpa]; simp)]
    · rw [eraseFirst_cons_neg as (by simpa using hqa)]
      by_cases hpa : p a = true
      · rw [List.find?_cons_of_pos _ hpa, List.find?_cons_of_pos _ hpa]
      · rw [List.find?_cons_of_neg _ hpa, List.find?_cons_of_neg _ hpa, ih]

theorem find?_eraseFirst_self {α : Type} (q : α → Bool) :
    ∀ l : List α, l.countP q ≤ 1 → (eraseFirst q l).find? q = none := by
  intro l
  induction l with
  | nil => intro _; rfl
  | cons a as ih =>
    intro h
    rw [List.countP_cons] at h
    by_cases hqa : q a = true
    · rw [hqa] at h
      simp only [if_true] at h
      have hcount : as.countP q = 0 := by omega
      rw [eraseFirst_cons_pos as hqa]
      exact List.find?_eq_none.mpr fun x hx => by
        simpa using (List.countP_eq_zero.mp hcount) x hx
    · rw [eraseFirst_cons_neg as (by simpa using hqa),
        List.find?_cons_of_neg _ hqa]
      exact ih (le_trans (Nat.le_add_right _ _) h)

theorem mem_modifyFirst {α : Type} (q : α → Bool) (f : α → α) :
    ∀ (l : List α) (x : α), x ∈ modifyFirst q f l →
      x ∈ l ∨ ∃ y, l.find? q = some y ∧ x = f y := by
  intro l
  induction l with
  | nil => intro x hx; simp [modifyFirst] at hx
  | cons a as ih =>
    intro x hx
    by_cases hqa : q a = true
    · rw [modifyFirst_cons_pos f as hqa] at hx
      rcases List.mem_cons.mp hx with h1 | h1
      · exact Or.inr ⟨a, List.find?_cons_of_pos _ hqa, h1⟩
      · exact Or.inl (List.mem_cons_of_mem _ h1)
    · rw [modifyFirst_cons_neg f as (by simpa using hqa)] at hx
      rcases List.mem_cons.mp hx with h1 | h1
      · exact Or.inl (by simp [h1])
      · rcases ih x h1 with h2 | ⟨y, hy, hxy⟩
        · exact Or.inl (List.mem_cons_of_mem _ h2)
        · exact Or.inr ⟨y, by rw [List.find?_cons_of_neg _ hqa]; exact hy, hxy⟩

theorem mem_eraseFirst {α : Type} (q : α → Bool) :
    ∀ (l : List α) (x : α), x ∈ eraseFirst q l → x ∈ l := by
  intro l
  induction l with
  | nil => intro x hx; simp [eraseFirst] at hx
  | cons a as ih =>
    intro x hx
    by_cases hqa : q a = true
    · rw [eraseFirst_cons_pos as hqa] at hx
      exact List.mem_cons_of_mem _ hx
    · rw [eraseFirst_cons_neg as (by simpa using hqa)] at hx
      rcases List.mem_cons.mp hx with h1 | h1
      · simp [h1]
      · exact List.mem_cons_of_mem _ (ih x h1)

theorem countP_modifyFirst {α : Type} (p q : α → Bool) (f : α → α)
    (hf : ∀ x, p (f x) = p x) :
    ∀ l : List α, (modifyFirst q f l).countP p = l.countP p := by
  intro l
  induction l with
  | nil => rfl
  | cons a as ih =>
    by_cases hqa : q a = true
    · rw [modifyFirst_cons_pos f as hqa, List.countP_cons, List.countP_cons, hf]
    · rw [modifyFirst_cons_neg f as (by simpa using hqa),
        List.countP_cons, List.countP_cons, ih]

/-! ## Branch lemmas for the ledger -/

theorem executeOrder_rateLimited {ty : OrderType} {s : String} {a pr : ℚ}
    {now : ℤ} {st : LedgerState} (h : now - st.lastTransaction < 500) :
    executeOrder ty s a pr now st = (st, .rateLimited) := by
  simp [executeOrder, h]

theorem buy_committed {s : String} {a pr : ℚ} {now : ℤ} {st : LedgerState}
    (h : (executeOrder .buy s a pr now st).2 = .committed) :
    (executeOrder .buy s a pr now st).1.portfolio =
        buyUpdate s a pr ⟨.buy, s, a, pr, now⟩ st.portfolio ∧
      (executeOrder .buy s a pr now st).1.lastTransaction = now ∧
      ¬ a * pr > usdAmount st.portfolio ∧
      (st.portfolio.find? (isSym usdSymbol)).isSome = true ∧
      ¬ now - st.lastTransaction < 500 := by
  unfold executeOrder at h ⊢
  split_ifs at h ⊢ <;> simp_all [usdAmount] <;>
    split_ifs at h ⊢ <;> simp_all

theorem sell_committed {s : String} {a pr : ℚ} {now : ℤ} {st : LedgerState}
    (h : (executeOrder .sell s a pr now st).2 = .committed) :
    (executeOrder .sell s a pr now st).1.portfolio =
        (sellUpdate s a pr ⟨.sell, s, a, pr, now⟩ st.portfolio).1 ∧
      (sellUpdate s a pr ⟨.sell, s, a, pr, now⟩ st.portfolio).2 = true ∧
      (executeOrder .sell s a pr now st).1.lastTransaction = now ∧
      ¬ a > symAmount s st.portfolio ∧
      (st.portfolio.find? (isSym usdSymbol)).isSome = true ∧
      ¬ now - st.lastTransaction < 500 := by
  unfold executeOrder at h ⊢
  split_ifs at h ⊢ <;> simp_all [symAmount] <;>
    split_ifs at h ⊢ <;> simp_all

/-! ## Claim C2: rejected orders leave the ledger unchanged -/

/-- C2: every order the ledger rejects — insufficient funds on a buy,
insufficient holdings on a sell — leaves the whole ledger state (cash,
holdings, transactions) byte-for-byte unchanged. -/
theorem rejected_order_leaves_ledger_unchanged
    (ty : OrderType) (s : String) (a pr : ℚ) (now : ℤ) (st : LedgerState)
    (h : (executeOrder ty s a pr now st).2 = ExecResult.insufficientFunds ∨
         (executeOrder ty s a pr now st).2 = ExecResult.insufficientHoldings) :
    (executeOrder ty s a pr now st).1 = st := by
  cases ty <;>
    (unfold executeOrder at h ⊢
     split_ifs at h ⊢ <;> simp_all <;> split_ifs at h ⊢ <;> simp_all)

/-- Witness for C2, Scenario C of the spec: a SELL of 0.5 BTC against a
holding of 0.3 BTC is rejected as insufficient holdings with the ledger
unchanged. -/
theorem rejected_order_leaves_ledger_unchanged_witness :
    (executeOrder .sell btcSymbol (mkRat 1 2) 40000 1000
        ⟨[⟨usdSymbol, usdName, 10000, 1, []⟩,
          ⟨btcSymbol, btcSymbol, mkRat 3 10, 40000, []⟩], 0, []⟩).2 =
      ExecResult.insufficientHoldings ∧
    (executeOrder .sell btcSymbol (mkRat 1 2) 40000 1000
        ⟨[⟨usdSymbol, usdName, 10000, 1, []⟩,
          ⟨btcSymbol, btcSymbol, mkRat 3 10, 40000, []⟩], 0, []⟩).1 =
      ⟨[⟨usdSymbol, usdName, 10000, 1, []⟩,
        ⟨btcSymbol, btcSymbol, mkRat 3 10, 40000, []⟩], 0, []⟩ := by
  refine ⟨by with_unfolding_all rfl, ?_⟩
  exact rejected_order_leaves_ledger_unchanged _ _ _ _ _ _
    (Or.inr (by with_unfolding_all rfl))

/-! ## Claim C3: nonnegativity of the USD holding -/

/-- C3 counterexample: from a portfolio holding 0.3 BTC and USD 10000 ≥ 0,
a sell order with the negative amount `-1000` at price `50` is committed by
`executeOrder` — no check rejects it — and leaves the USD holding at
`-40000 < 0`, refuting the claim that committed orders keep the USD
holding nonnegative for all orders including negative amounts. -/
theorem usd_negative_after_negative_sell :
    (executeOrder .sell btcSymbol (-1000) 50 1000
        ⟨[⟨usdSymbol, usdName, 10000, 1, []⟩,
          ⟨btcSymbol, btcSymbol, mkRat 3 10, 40000, []⟩], 0, []⟩).2 =
      ExecResult.committed ∧
    usdAmount (executeOrder .sell btcSymbol (-1000) 50 1000
        ⟨[⟨usdSymbol, usdName, 10000, 1, []⟩,
          ⟨btcSymbol, btcSymbol, mkRat 3 10, 40000, []⟩], 0, []⟩).1.portfolio =
      -40000 ∧
    ¬ 0 ≤ usdAmount (executeOrder .sell btcSymbol (-1000) 50 1000
        ⟨[⟨usdSymbol, usdName, 10000, 1, []⟩,
          ⟨btcSymbol, btcSymbol, mkRat 3 10, 40000, []⟩], 0, []⟩).1.portfolio := by
  refine ⟨by with_unfolding_all rfl, by with_unfolding_all rfl, ?_⟩
  rw [show usdAmount (executeOrder .sell btcSymbol (-1000) 50 1000
        ⟨[⟨usdSymbol, usdName, 10000, 1, []⟩,
          ⟨btcSymbol, btcSymbol, mkRat 3 10, 40000, []⟩], 0, []⟩).1.portfolio =
      -40000 from by with_unfolding_all rfl]
  norm_num

theorem buyUpdate_usd_nonneg (s : String) (a pr : ℚ) (tx : Tx)
    (p : List PortfolioItem)
    (hP : ∀ it ∈ p, isSym usdSymbol it = true → 0 ≤ it.amount)
    (hfunds : ¬ a * pr > usdAmount p) (ha : 0 ≤ a) :
    ∀ it ∈ buyUpdate s a pr tx p, isSym usdSymbol it = true → 0 ≤ it.amount := by
  have hp1 : ∀ it ∈ modifyFirst (isSym usdSymbol)
      (fun it => { it with amount := it.amount - a * pr,
                           transactions := it.transactions ++ [tx] }) p,
      isSym usdSymbol it = true → 0 ≤ it.amount := by
    intro it hit husd
    rcases mem_modifyFirst _ _ _ _ hit with h1 | ⟨y, hy, rfl⟩
    · exact hP it h1 husd
    · have hyp : usdAmount p = y.amount := by
        simp [usdAmount, hy]
      have hle : a * pr ≤ y.amount := by rw [← hyp]; exact not_lt.mp hfunds
      show 0 ≤ y.amount - a * pr
      linarith
  intro it hit husd
  simp only [buyUpdate] at hit
  by_cases hnew : (p.find? (isSym s)).isNone
  · rw [if_pos hnew] at hit
    rcases List.mem_append.mp hit with h1 | h1
    · exact hp1 it h1 husd
    · have heq : it = ⟨s, s, a, pr, [tx]⟩ := by simpa using h1
      rw [heq]
      exact ha
  · rw [if_neg hnew] at hit
    rcases mem_modifyFirst _ _ _ _ hit with h1 | ⟨z, hz, rfl⟩
    · exact hp1 it h1 husd
    · have hzmem := List.mem_of_find?_eq_some hz
      have hz0 : 0 ≤ z.amount := hp1 z hzmem (by simpa [isSym] using husd)
      show 0 ≤ z.amount + a
      linarith

theorem sellUpdate_eq_missing (s : String) (a pr : ℚ) (tx : Tx)
    (p : List PortfolioItem)
    (h : (modifyFirst (isSym usdSymbol)
        (fun it => { it with amount := it.amount + a * pr,
                             transactions := it.transactions ++ [tx] })
          p).find? (isSym s) = none) :
    sellUpdate s a pr tx p =
      (modifyFirst (isSym usdSymbol)
        (fun it => { it with amount := it.amount + a * pr,
                             transactions := it.transactions ++ [tx] }) p,
       false) := by
  simp only [sellUpdate, h]

theorem sellUpdate_eq_full (s : String) (a pr : ℚ) (tx : Tx)
    (p : List PortfolioItem) (z : PortfolioItem)
    (h : (modifyFirst (isSym usdSymbol)
        (fun it => { it with amount := it.amount + a * pr,
                             transactions := it.transactions ++ [tx] })
          p).find? (isSym s) = some z)
    (hz : z.amount = a) :
    sellUpdate s a pr tx p =
      (eraseFirst (isSym s)
          (modifyFirst (isSym usdSymbol)
            (fun it => { it with amount := it.amount + a * pr,
                                 transactions := it.transactions ++ [tx] }) p)
        ++ [⟨s, s, 0, 0, z.transactions ++ [tx]⟩], true) := by
  simp only [sellUpdate, h, hz, if_true, if_pos]

theorem sellUpdate_eq_reduced (s : String) (a pr : ℚ) (tx : Tx)
    (p : List PortfolioItem) (z : PortfolioItem)
    (h : (modifyFirst (isSym usdSymbol)
        (fun it => { it with amount := it.amount + a * pr,
                             transactions := it.transactions ++ [tx] })
          p).find? (isSym s) = some z)
    (hz : ¬ z.amount = a) :
    sellUpdate s a pr tx p =
      (modifyFirst (isSym s)
        (fun it => { it with amount := it.amount - a,
                             transactions := it.transactions ++ [tx] })
        (modifyFirst (isSym usdSymbol)
          (fun it => { it with amount := it.amount + a * pr,
                               transactions := it.transactions ++ [tx] }) p),
       true) := by
  simp only [sellUpdate, h, hz, if_false, if_neg, not_false_iff]

theorem sellUpdate_usd_nonneg (s : String) (a pr : ℚ) (tx : Tx)
    (p : List PortfolioItem)
    (hP : ∀ it ∈ p, isSym usdSymbol it = true → 0 ≤ it.amount)
    (hsell : ¬ a > symAmount s p) (ha : 0 ≤ a) (hpr : 0 ≤ pr) :
    ∀ it ∈ (sellUpdate s a pr tx p).1,
      isSym usdSymbol it = true → 0 ≤ it.amount := by
  have hprod : 0 ≤ a * pr := mul_nonneg ha hpr
  have hp1 : ∀ it ∈ modifyFirst (isSym usdSymbol)
      (fun it => { it with amount := it.amount + a * pr,
                           transactions := it.transactions ++ [tx] }) p,
      isSym usdSymbol it = true → 0 ≤ it.amount := by
    intro it hit husd
    rcases mem_modifyFirst _ _ _ _ hit with h1 | ⟨y, hy, rfl⟩
    · exact hP it h1 husd
    · have hy0 : 0 ≤ y.amount := hP y (List.mem_of_find?_eq_some hy)
        (List.find?_some hy)
      show 0 ≤ y.amount + a * pr
      linarith
  intro it hit husd
  rcases hfind : (modifyFirst (isSym usdSymbol)
      (fun it => { it with amount := it.amount + a * pr,
                           transactions := it.transactions ++ [tx] }) p).find?
      (isSym s) with _ | z
  · rw [sellUpdate_eq_missing s a pr tx p hfind] at hit
    exact hp1 it hit husd
  · by_cases hall : z.amount = a
    · rw [sellUpdate_eq_full s a pr tx p z hfind hall] at hit
      rcases List.mem_append.mp hit with h1 | h1
      · exact hp1 it (mem_eraseFirst _ _ _ h1) husd
      · have heq : it = ⟨s, s, 0, 0, z.transactions ++ [tx]⟩ := by simpa using h1
        rw [heq]
    · rw [sellUpdate_eq_reduced s a pr tx p z hfind hall] at hit
      rcases mem_modifyFirst _ _ _ _ hit with h1 | ⟨w, hw, rfl⟩
      · exact hp1 it h1 husd
      · -- the modified row is the asset row: it is a USD row only when
        -- the very order sells USD, and then the sell check bounds `a`
        have h1 : w.symbol = s := by
          have := List.find?_some hw
          simpa [isSym] using this
        have h2 : w.symbol = usdSymbol := by simpa [isSym] using husd
        have hsu : s = usdSymbol := h1.symm.trans h2
        have hself : (modifyFirst (isSym usdSymbol)
            (fun it => { it with amount := it.amount + a * pr,
                                 transactions := it.transactions ++ [tx] })
              p).find? (isSym usdSymbol) =
            (p.find? (isSym usdSymbol)).map
              (fun it => { it with amount := it.amount + a * pr,
                                   transactions := it.transactions ++ [tx] }) :=
          find?_modifyFirst_self _ _ (fun x => by simp [isSym]) p
        rw [hsu] at hw
        rw [hself] at hw
        rcases hu : p.find? (isSym usdSymbol) with _ | u
        · rw [hu] at hw; simp at hw
        · rw [hu] at hw
          have hwu : w = ⟨u.symbol, u.name, u.amount + a * pr, u.averagePrice,
              u.transactions ++ [tx]⟩ := by
            simpa using hw.symm
          have hu0 : symAmount usdSymbol p = u.amount := by
            simp [symAmount, hu]
          have hale : a ≤ symAmount s p := not_lt.mp hsell
          rw [hsu, hu0] at hale
          show 0 ≤ w.amount - a
          rw [hwu]
          show 0 ≤ u.amount + a * pr - a
          linarith

theorem executeOrder_portfolio_cases (ty : OrderType) (s : String)
    (a pr : ℚ) (now : ℤ) (st : LedgerState) :
    (executeOrder ty s a pr now st).1.portfolio = st.portfolio ∨
    (ty = .buy ∧ ¬ a * pr > usdAmount st.portfolio ∧
      (executeOrder ty s a pr now st).1.portfolio =
        buyUpdate s a pr ⟨ty, s, a, pr, now⟩ st.portfolio) ∨
    (ty = .sell ∧ ¬ a > symAmount s st.portfolio ∧
      (executeOrder ty s a pr now st).1.portfolio =
        (sellUpdate s a pr ⟨ty, s, a, pr, now⟩ st.portfolio).1) := by
  cases ty <;> unfold executeOrder <;> split_ifs <;>
    simp_all [usdAmount, symAmount] <;> split_ifs <;> simp_all

/-- C3 (amended): for every order with nonnegative amount and nonnegative
price, any call to `executeOrder` — committed, rejected or errored — keeps
every USD row of the portfolio nonnegative: a buy is rejected before
application when its cost exceeds the USD balance, and a sell only credits
cash.  The restriction to nonnegative amounts and prices is forced by the
counterexample: the source validates neither, and a sell with negative
amount (or negative price) debits cash without any check. -/
theorem usd_rows_stay_nonneg
    (ty : OrderType) (s : String) (a pr : ℚ) (now : ℤ) (st : LedgerState)
    (hP : ∀ it ∈ st.portfolio, isSym usdSymbol it = true → 0 ≤ it.amount)
    (ha : 0 ≤ a) (hpr : 0 ≤ pr) :
    ∀ it ∈ (executeOrder ty s a pr now st).1.portfolio,
      isSym usdSymbol it = true → 0 ≤ it.amount := by
  rcases executeOrder_portfolio_cases ty s a pr now st with h |
    ⟨hty, hfunds, h⟩ | ⟨hty, hsell, h⟩
  · rw [h]; exact hP
  · rw [h]; exact buyUpdate_usd_nonneg _ _ _ _ _ hP hfunds ha
  · rw [h]; exact sellUpdate_usd_nonneg _ _ _ _ _ hP hsell ha hpr

/-- Witness for the amended C3: a committed sell of 0.1 BTC at 40000 from
the Scenario-C portfolio keeps the USD rows nonnegative. -/
theorem usd_rows_stay_nonneg_witness :
    (∀ it ∈ ([⟨usdSymbol, usdName, 10000, 1, []⟩,
        ⟨btcSymbol, btcSymbol, mkRat 3 10, 40000, []⟩] : List PortfolioItem),
      isSym usdSymbol it = true → 0 ≤ it.amount) ∧
    (0 ≤ (mkRat 1 10 : ℚ)) ∧ (0 ≤ (40000 : ℚ)) ∧
    ∀ it ∈ (executeOrder .sell btcSymbol (mkRat 1 10) 40000 1000
        ⟨[⟨usdSymbol, usdName, 10000, 1, []⟩,
          ⟨btcSymbol, btcSymbol, mkRat 3 10, 40000, []⟩], 0, []⟩).1.portfolio,
      isSym usdSymbol it = true → 0 ≤ it.amount := by
  refine ⟨by with_unfolding_all decide, by with_unfolding_all decide,
    by with_unfolding_all decide, ?_⟩
  exact usd_rows_stay_nonneg _ _ _ _ _ _ (by with_unfolding_all decide)
    (by with_unfolding_all decide) (by with_unfolding_all decide)

/-! ## Claim C4: there is no amount/price validation -/

/-- C4 counterexample: an order with amount `-1` (≤ 0) is not rejected with
any invalid-amount outcome: the buy passes every check `executeOrder` has,
is committed, and changes the portfolio — cash rises to 10001 and a BTC row
with the negative amount `-1` is created. -/
theorem negative_amount_buy_commits :
    (executeOrder .buy btcSymbol (-1) 1 1000 initialState).2 =
      ExecResult.committed ∧
    usdAmount (executeOrder .buy btcSymbol (-1) 1 1000
      initialState).1.portfolio = 10001 ∧
    ¬ (executeOrder .buy btcSymbol (-1) 1 1000 initialState).1.portfolio =
      initialState.portfolio := by
  exact ⟨by with_unfolding_all rfl, by with_unfolding_all rfl,
    by with_unfolding_all decide⟩

/-- C4 (amended): `executeOrder` performs no amount or price validation —
there is no invalid-amount or invalid-price rejection in the function.  A
buy whose amount or price is nonpositive is committed all the same whenever
the gates the function does have (rate limit, funds check against
`amount * price`, duplicate check, USD row present) pass. -/
theorem no_amount_price_validation
    (s : String) (a pr : ℚ) (now : ℤ) (st : LedgerState)
    (hbad : a ≤ 0 ∨ pr ≤ 0)
    (hrate : ¬ now - st.lastTransaction < 500)
    (hfunds : ¬ a * pr > usdAmount st.portfolio)
    (hdup : ((logGet st.transactionLog (txKey .buy s a pr now)).map
      LogEntry.processed).getD false = false)
    (husd : (st.portfolio.find? (isSym usdSymbol)).isNone = false) :
    (executeOrder .buy s a pr now st).2 = ExecResult.committed := by
  unfold executeOrder
  rw [if_neg hrate]
  rw [if_neg (fun hc => hfunds hc.2)]
  rw [if_neg (fun hc => OrderType.noConfusion hc.1)]
  rw [if_neg (by rw [hdup]; simp)]
  rw [if_neg (by rw [husd]; simp)]

/-- Witness for the amended C4: the `-1`-amount buy from the initial ledger
satisfies all gates and is committed. -/
theorem no_amount_price_validation_witness :
    ((-1 : ℚ) ≤ 0 ∨ (1 : ℚ) ≤ 0) ∧
    (executeOrder .buy btcSymbol (-1) 1 1000 initialState).2 =
      ExecResult.committed := by
  refine ⟨Or.inl (by norm_num), ?_⟩
  exact no_amount_price_validation btcSymbol (-1) 1 1000 initialState
    (Or.inl (by norm_num)) (by with_unfolding_all decide)
    (by with_unfolding_all decide) (by with_unfolding_all rfl)
    (by with_unfolding_all rfl)

/-! ## Claim C1: the moving-average crossover signal -/

theorem lastN_length {α : Type} (n : ℕ) (l : List α) (h : n ≤ l.length) :
    (lastN n l).length = n := by
  simp only [lastN, List.length_drop]
  omega

theorem calculateMovingAverage_eq_mean (prices : List ℚ) (period : ℕ)
    (h : period ≤ prices.length) :
    calculateMovingAverage prices period =
      (lastN period prices).sum / (period : ℚ) := by
  simp [calculateMovingAverage, Nat.not_lt.mpr h]

/-- C1: a MOVING_AVERAGE evaluation (a) returns HOLD, without touching
anything, when the history is shorter than `longPeriod`; (b) otherwise
signals BUY iff `shortMA > longMA` and previously `prevShortMA ≤
prevLongMA`, SELL iff the mirror crossing, HOLD otherwise, where the four
quantities are the code's `calculateMovingAverage` values over the history
and the history with its last point dropped; and (c) whenever the window
fits (`longPeriod < length` for the dropped history) each of those values
is literally the mean of the last `shortPeriod`/`longPeriod` prices. -/
theorem ma_crossover_signal (history : List ℚ) (shortPeriod longPeriod : ℕ)
    (hpos : 0 < shortPeriod) (hlt : shortPeriod < longPeriod) :
    (history.length < longPeriod →
      executeMAStrategy history shortPeriod longPeriod = (.hold, false)) ∧
    (longPeriod ≤ history.length →
      (((executeMAStrategy history shortPeriod longPeriod).1 = Signal.buy) ↔
        (calculateMovingAverage history shortPeriod >
            calculateMovingAverage history longPeriod ∧
          calculateMovingAverage history.dropLast shortPeriod ≤
            calculateMovingAverage history.dropLast longPeriod)) ∧
      (((executeMAStrategy history shortPeriod longPeriod).1 = Signal.sell) ↔
        (calculateMovingAverage history shortPeriod <
            calculateMovingAverage history longPeriod ∧
          calculateMovingAverage history.dropLast shortPeriod ≥
            calculateMovingAverage history.dropLast longPeriod)) ∧
      (((executeMAStrategy history shortPeriod longPeriod).1 = Signal.hold) ↔
        (¬ (calculateMovingAverage history shortPeriod >
              calculateMovingAverage history longPeriod ∧
            calculateMovingAverage history.dropLast shortPeriod ≤
              calculateMovingAverage history.dropLast longPeriod) ∧
         ¬ (calculateMovingAverage history shortPeriod <
              calculateMovingAverage history longPeriod ∧
            calculateMovingAverage history.dropLast shortPeriod ≥
              calculateMovingAverage history.dropLast longPeriod)))) ∧
    (longPeriod < history.length →
      calculateMovingAverage history shortPeriod =
        (lastN shortPeriod history).sum / (shortPeriod : ℚ) ∧
      calculateMovingAverage history longPeriod =
        (lastN longPeriod history).sum / (longPeriod : ℚ) ∧
      calculateMovingAverage history.dropLast shortPeriod =
        (lastN shortPeriod history.dropLast).sum / (shortPeriod : ℚ) ∧
      calculateMovingAverage history.dropLast longPeriod =
        (lastN longPeriod history.dropLast).sum / (longPeriod : ℚ)) := by
  refine ⟨?_, ?_, ?_⟩
  · intro h
    simp [executeMAStrategy, h]
  · intro h
    have hnot : ¬ history.length < longPeriod := Nat.not_lt.mpr h
    simp only [executeMAStrategy, hnot, if_false]
    split_ifs with h1 h2 <;> simp_all
    intro hc
    linarith [h1.1]
  · intro h
    have hdl : history.dropLast.length = history.length - 1 :=
      List.length_dropLast history
    refine ⟨calculateMovingAverage_eq_mean _ _ (by omega),
      calculateMovingAverage_eq_mean _ _ (by omega),
      calculateMovingAverage_eq_mean _ _ (by omega),
      calculateMovingAverage_eq_mean _ _ (by omega)⟩

/-- Witness for C1: with `shortPeriod = 1 < 2 = longPeriod` and the history
`[1, 2, 3]` (steadily above, no crossing) the evaluation holds. -/
theorem ma_crossover_signal_witness :
    (0 < 1 ∧ 1 < 2 ∧ (2 : ℕ) ≤ ([1, 2, 3] : List ℚ).length) ∧
    (((executeMAStrategy [1, 2, 3] 1 2).1 = Signal.hold) ↔
      (¬ (calculateMovingAverage [1, 2, 3] 1 >
            calculateMovingAverage [1, 2, 3] 2 ∧
          calculateMovingAverage ([1, 2, 3] : List ℚ).dropLast 1 ≤
            calculateMovingAverage ([1, 2, 3] : List ℚ).dropLast 2) ∧
       ¬ (calculateMovingAverage [1, 2, 3] 1 <
            calculateMovingAverage [1, 2, 3] 2 ∧
          calculateMovingAverage ([1, 2, 3] : List ℚ).dropLast 1 ≥
            calculateMovingAverage ([1, 2, 3] : List ℚ).dropLast 2))) := by
  refine ⟨⟨Nat.zero_lt_one, by norm_num, by norm_num⟩, ?_⟩
  exact (((ma_crossover_signal [1, 2, 3] 1 2 Nat.zero_lt_one
    (by norm_num)).2.1 (by norm_num)).2).2

/-! ## Claim C9: when the execution time advances -/

/-- C9 counterexample: (a) in `use-strategy-manager.ts`, a MOVING_AVERAGE
evaluation with sufficient history and no crossing yields HOLD yet still
runs `setLastExecution` — the call sits after the signal branches,
unconditionally; (b) in `part_008`, a DCA evaluation whose asset has no
price data returns early and does **not** advance the execution time,
against the claim that DCA advances it even on a missing price. -/
theorem hold_still_advances_and_dca_does_not :
    executeMAStrategy [1, 2, 3] 1 2 = (Signal.hold, true) ∧
    executeDCAStrategy none 100 = (none, false) :=
  ⟨by with_unfolding_all rfl, by with_unfolding_all rfl⟩

/-- C9 (amended): the execution-time bookkeeping differs per
implementation: (a) the `use-strategy-manager.ts` MA hook advances
`lastExecution` on **every** evaluation that passes the data check, HOLD
included; (b) the `part_009` MA hook advances it exactly when a trade fired
(a crossover); (c) the `part_008` DCA hook advances it exactly when price
data is present and the amount is positive — a missing price returns
without advancing. -/
theorem lastExecution_advance_rules :
    (∀ (history : List ℚ) (s l : ℕ), ¬ history.length < l →
      (executeMAStrategy history s l).2 = true) ∧
    (∀ (pso plo : Option ℚ) (sMA lMA : ℚ),
      (executeMAStrategyP9 pso plo sMA lMA).2 = true ↔
        ¬ (executeMAStrategyP9 pso plo sMA lMA).1 = Signal.hold) ∧
    (∀ (cp : Option ℚ) (a : ℚ),
      (executeDCAStrategy cp a).2 = true ↔ cp.isSome = true ∧ 0 < a) := by
  refine ⟨?_, ?_, ?_⟩
  · intro history s l h
    simp only [executeMAStrategy, h, if_false]
    split_ifs <;> rfl
  · intro pso plo sMA lMA
    rcases pso with _ | ps <;> rcases plo with _ | pl <;>
      simp only [executeMAStrategyP9] <;> try simp
    split_ifs <;> simp_all
  · intro cp a
    rcases cp with _ | pr <;> simp only [executeDCAStrategy] <;>
      try simp
    split_ifs with h <;> simp_all

/-- Witness for the amended C9: a sufficient-history MA evaluation that
holds still advances; a crossing advances in the `part_009` hook; a DCA
evaluation with a present price and positive amount advances. -/
theorem lastExecution_advance_rules_witness :
    (¬ ([1, 2, 3] : List ℚ).length < 2 ∧
      (executeMAStrategy [1, 2, 3] 1 2).2 = true) ∧
    ((executeMAStrategyP9 (some 1) (some 2) 3 2).2 = true ↔
      ¬ (executeMAStrategyP9 (some 1) (some 2) 3 2).1 = Signal.hold) ∧
    ((executeDCAStrategy (some 50000) 100).2 = true ↔
      (some (50000 : ℚ)).isSome = true ∧ (0 : ℚ) < 100) := by
  refine ⟨⟨by norm_num, ?_⟩, ?_, ?_⟩
  · exact lastExecution_advance_rules.1 [1, 2, 3] 1 2 (by norm_num)
  · exact lastExecution_advance_rules.2.1 (some 1) (some 2) 3 2
  · exact lastExecution_advance_rules.2.2 (some 50000) 100

/-! ## Claim C7: the RSI signal is edge-triggered -/

theorem executeRSIStrategy_of_zone {e : List ℚ} {period : ℕ}
    {ob os : ℚ} {z : ℤ} (h : rsiEvalZone e period ob os = some z)
    (st : ℤ) :
    executeRSIStrategy e period ob os st =
      (if st = z then Signal.hold
       else if z = -1 then Signal.buy
       else if z = 1 then Signal.sell
       else Signal.hold, z) := by
  unfold rsiEvalZone at h
  by_cases hlen : e.length < period + 1
  · rw [if_pos hlen] at h
    exact absurd h (by simp)
  · rw [if_neg hlen] at h
    have hz : rsiZone (rsiAvgGain e period) (rsiAvgLoss e period) ob os = z :=
      by simpa using h
    unfold executeRSIStrategy
    rw [if_neg hlen]
    simp only [hz]
    by_cases hst : st = z
    · rw [if_neg (not_not_intro hst)]
      simp [hst]
    · rw [if_pos hst]
      simp [hst]

theorem rsiSignals_steady (period : ℕ) (ob os : ℚ) (z : ℤ) :
    ∀ evals : List (List ℚ),
      (∀ e ∈ evals, rsiEvalZone e period ob os = some z) →
      rsiSignals period ob os evals z =
        List.replicate evals.length Signal.hold := by
  intro evals
  induction evals with
  | nil => intro _; rfl
  | cons e rest ih =>
    intro h
    have he := h e (by simp)
    have hrest := ih fun e' he' => h e' (List.mem_cons_of_mem _ he')
    simp [rsiSignals, executeRSIStrategy_of_zone he, hrest,
      List.replicate_succ]

/-- C7: the RSI detector is edge-triggered.  Over any run of evaluations
whose computed zone is steadily OVERBOUGHT, started from a different stored
zone, exactly one SELL is emitted — on the entering evaluation — and every
later evaluation of the run yields HOLD; symmetrically a run steadily in
the OVERSOLD zone entered from a different zone emits exactly one BUY and
then HOLDs. -/
theorem rsi_edge_triggered (period : ℕ) (ob os : ℚ) (st : ℤ)
    (evals : List (List ℚ)) :
    ((∀ e ∈ evals, rsiEvalZone e period ob os = some 1) → ¬ st = 1 →
      ¬ evals = [] →
      rsiSignals period ob os evals st =
        Signal.sell :: List.replicate (evals.length - 1) Signal.hold) ∧
    ((∀ e ∈ evals, rsiEvalZone e period ob os = some (-1)) → ¬ st = -1 →
      ¬ evals = [] →
      rsiSignals period ob os evals st =
        Signal.buy :: List.replicate (evals.length - 1) Signal.hold) := by
  constructor
  · intro hz hst hne
    rcases evals with _ | ⟨e, rest⟩
    · exact absurd rfl hne
    · have he := hz e (by simp)
      have hrest := rsiSignals_steady period ob os 1 rest
        fun e' he' => hz e' (List.mem_cons_of_mem _ he')
      simp [rsiSignals, executeRSIStrategy_of_zone he, hst, hrest]
  · intro hz hst hne
    rcases evals with _ | ⟨e, rest⟩
    · exact absurd rfl hne
    · have he := hz e (by simp)
      have hrest := rsiSignals_steady period ob os (-1) rest
        fun e' he' => hz e' (List.mem_cons_of_mem _ he')
      simp [rsiSignals, executeRSIStrategy_of_zone he, hst, hrest]

/-- Witness for C7: with period 1, overbought 70, oversold 30, the window
`[1, 2]` computes the overbought zone (`avgLoss = 0`, `avgGain > 0`, RSI
100); two such evaluations from the NORMAL state emit exactly one SELL and
then HOLD. -/
theorem rsi_edge_triggered_witness :
    (∀ e ∈ ([[1, 2], [1, 2]] : List (List ℚ)),
      rsiEvalZone e 1 70 30 = some 1) ∧
    rsiSignals 1 70 30 [[1, 2], [1, 2]] 0 =
      Signal.sell ::
        List.replicate (([[1, 2], [1, 2]] : List (List ℚ)).length - 1)
          Signal.hold := by
  refine ⟨by with_unfolding_all decide, ?_⟩
  exact (rsi_edge_triggered 1 70 30 0 [[1, 2], [1, 2]]).1
    (by with_unfolding_all decide) (by decide) (by simp)

/-! ## Claim C5: the average cost of buys -/

theorem find?_append_left_none {α : Type} (p : α → Bool) :
    ∀ l1 l2 : List α, l1.find? p = none →
      (l1 ++ l2).find? p = l2.find? p := by
  intro l1 l2 h
  induction l1 with
  | nil => rfl
  | cons a as ih =>
    have hall := List.find?_eq_none.mp h
    have hpa : ¬ p a = true := hall a (by simp)
    have has : as.find? p = none :=
      List.find?_eq_none.mpr fun x hx => hall x (List.mem_cons_of_mem _ hx)
    rw [List.cons_append, List.find?_cons_of_neg _ hpa, ih has]

theorem isSym_ne_of_usd {s : String} (hs : ¬ s = usdSymbol) :
    ∀ x : PortfolioItem, isSym usdSymbol x = true → isSym s x = false := by
  intro x hx
  simp only [isSym, beq_iff_eq] at hx ⊢
  rw [hx]
  exact beq_eq_false_iff_ne.mpr fun hh => hs hh.symm

theorem find?_buyUpdate_new (s : String) (a pr : ℚ) (tx : Tx)
    (p : List PortfolioItem) (hs : ¬ s = usdSymbol)
    (h : p.find? (isSym s) = none) :
    (buyUpdate s a pr tx p).find? (isSym s) = some ⟨s, s, a, pr, [tx]⟩ := by
  have h1 : (modifyFirst (isSym usdSymbol)
      (fun it => { it with amount := it.amount - a * pr,
                           transactions := it.transactions ++ [tx] })
        p).find? (isSym s) = none := by
    rw [find?_modifyFirst_of_ne (isSym s) (isSym usdSymbol) _
      (isSym_ne_of_usd hs) (fun x => by simp [isSym]) p]
    exact h
  simp only [buyUpdate, h, Option.isNone_none, if_true]
  rw [find?_append_left_none _ _ _ h1,
    List.find?_cons_of_pos _ (by simp [isSym])]

theorem find?_buyUpdate_existing (s : String) (a pr : ℚ) (tx : Tx)
    (p : List PortfolioItem) (itm : PortfolioItem) (hs : ¬ s = usdSymbol)
    (h : p.find? (isSym s) = some itm) :
    (buyUpdate s a pr tx p).find? (isSym s) =
      some ⟨itm.symbol, itm.name, itm.amount + a,
        (itm.amount * itm.averagePrice + a * pr) / (itm.amount + a),
        itm.transactions ++ [tx]⟩ := by
  have hnone : (p.find? (isSym s)).isNone = false := by rw [h]; rfl
  have h1 : (modifyFirst (isSym usdSymbol)
      (fun it => { it with amount := it.amount - a * pr,
                           transactions := it.transactions ++ [tx] })
        p).find? (isSym s) = some itm := by
    rw [find?_modifyFirst_of_ne (isSym s) (isSym usdSymbol) _
      (isSym_ne_of_usd hs) (fun x => by simp [isSym]) p]
    exact h
  simp only [buyUpdate, hnone, Bool.false_eq_true, if_false]
  rw [find?_modifyFirst_self (isSym s) _ (fun x => by simp [isSym]) _, h1]
  rfl

theorem runBuys_cons (s : String) (o : ℚ × ℚ × ℤ)
    (rest : List (ℚ × ℚ × ℤ)) (st : LedgerState) :
    runBuys s (o :: rest) st =
      runBuys s rest (executeOrder .buy s o.1 o.2.1 o.2.2 st).1 := rfl

theorem runBuys_weighted_invariant (s : String) (hs : ¬ s = usdSymbol) :
    ∀ (orders : List (ℚ × ℚ × ℤ)) (st : LedgerState) (A C : ℚ),
      0 < A →
      (st.portfolio.find? (isSym s)).map
          (fun it => (it.amount, it.averagePrice)) = some (A, C) →
      allCommitted s orders st →
      (∀ o ∈ orders, 0 < o.1) →
      ((runBuys s orders st).portfolio.find? (isSym s)).map
          (fun it => (it.amount, it.averagePrice)) =
        some (A + (orders.map fun o => o.1).sum,
          (A * C + (orders.map fun o => o.1 * o.2.1).sum) /
            (A + (orders.map fun o => o.1).sum)) := by
  intro orders
  induction orders with
  | nil =>
    intro st A C hA hfind _ _
    simp only [runBuys, List.foldl_nil, List.map_nil, List.sum_nil, add_zero]
    rw [hfind, mul_div_cancel_left₀ C (ne_of_gt hA)]
  | cons o rest ih =>
    intro st A C hA hfind hcomm hpos
    obtain ⟨hc1, hc2⟩ := hcomm
    have hport := (buy_committed hc1).1
    rcases hfind0 : st.portfolio.find? (isSym s) with _ | itm
    · rw [hfind0] at hfind
      exact absurd hfind (by simp)
    · rw [hfind0] at hfind
      simp only [Option.map_some'] at hfind
      have h' := Option.some.inj hfind
      have hA1 : itm.amount = A := congrArg Prod.fst h'
      have hC1 : itm.averagePrice = C := congrArg Prod.snd h'
      have hstep := find?_buyUpdate_existing s o.1 o.2.1
        ⟨.buy, s, o.1, o.2.1, o.2.2⟩ st.portfolio itm hs hfind0
      have hnext : (((executeOrder .buy s o.1 o.2.1 o.2.2 st).1).portfolio.find?
          (isSym s)).map (fun it => (it.amount, it.averagePrice)) =
          some (A + o.1, (A * C + o.1 * o.2.1) / (A + o.1)) := by
        rw [hport, hstep]
        simp [hA1, hC1]
      have hpos_o : 0 < o.1 := hpos o (by simp)
      have hA' : 0 < A + o.1 := by linarith
      have hrec := ih ((executeOrder .buy s o.1 o.2.1 o.2.2 st).1) (A + o.1)
        ((A * C + o.1 * o.2.1) / (A + o.1)) hA' hnext hc2
        (fun o' ho' => hpos o' (List.mem_cons_of_mem _ ho'))
      rw [runBuys_cons, hrec]
      have hkey : (A + o.1) * ((A * C + o.1 * o.2.1) / (A + o.1)) =
          A * C + o.1 * o.2.1 := by
        field_simp
      rw [hkey]
      simp [add_assoc]

/-- C5: (i) a committed buy into an existing (non-cash) holding leaves the
holding with amount `oldAmount + amount` and average cost
`(oldAmount * oldAverageCost + amount * price) / (oldAmount + amount)`;
(ii) consequently, after any nonempty sequence of committed buys of one
asset starting from no holding, the holding's average cost is the
volume-weighted average of the buy prices. -/
theorem buy_averageCost_weighted :
    (∀ (s : String) (a pr : ℚ) (now : ℤ) (st : LedgerState)
      (itm : PortfolioItem), ¬ s = usdSymbol →
      st.portfolio.find? (isSym s) = some itm →
      (executeOrder .buy s a pr now st).2 = ExecResult.committed →
      (executeOrder .buy s a pr now st).1.portfolio.find? (isSym s) =
        some ⟨itm.symbol, itm.name, itm.amount + a,
          (itm.amount * itm.averagePrice + a * pr) / (itm.amount + a),
          itm.transactions ++ [⟨.buy, s, a, pr, now⟩]⟩) ∧
    (∀ (s : String) (orders : List (ℚ × ℚ × ℤ)) (st : LedgerState),
      ¬ s = usdSymbol →
      st.portfolio.find? (isSym s) = none →
      allCommitted s orders st →
      (∀ o ∈ orders, 0 < o.1) →
      ¬ orders = [] →
      ((runBuys s orders st).portfolio.find? (isSym s)).map
          PortfolioItem.averagePrice =
        some ((orders.map fun o => o.1 * o.2.1).sum /
          (orders.map fun o => o.1).sum)) := by
  constructor
  · intro s a pr now st itm hs hfind hcomm
    rw [(buy_committed hcomm).1,
      find?_buyUpdate_existing s a pr ⟨.buy, s, a, pr, now⟩ st.portfolio itm
        hs hfind]
  · intro s orders st hs hfind hcomm hpos hne
    rcases orders with _ | ⟨o, rest⟩
    · exact absurd rfl hne
    · obtain ⟨hc1, hc2⟩ := hcomm
      have hport := (buy_committed hc1).1
      have hstep := find?_buyUpdate_new s o.1 o.2.1
        ⟨.buy, s, o.1, o.2.1, o.2.2⟩ st.portfolio hs hfind
      have hpos_o : 0 < o.1 := hpos o (by simp)
      have hnext : (((executeOrder .buy s o.1 o.2.1 o.2.2 st).1).portfolio.find?
          (isSym s)).map (fun it => (it.amount, it.averagePrice)) =
          some (o.1, o.2.1) := by
        rw [hport, hstep]
        rfl
      have hrec := runBuys_weighted_invariant s hs rest
        ((executeOrder .buy s o.1 o.2.1 o.2.2 st).1) o.1 o.2.1 hpos_o hnext
        hc2 (fun o' ho' => hpos o' (List.mem_cons_of_mem _ ho'))
      rw [runBuys_cons]
      rcases hfin : ((runBuys s rest
          ((executeOrder .buy s o.1 o.2.1 o.2.2 st).1)).portfolio.find?
          (isSym s)) with _ | itf
      · rw [hfin] at hrec
        exact absurd hrec (by simp)
      · rw [hfin] at hrec
        simp only [Option.map_some'] at hrec
        have h' := Option.some.inj hrec
        have hv : itf.averagePrice =
            (o.1 * o.2.1 + (rest.map fun o => o.1 * o.2.1).sum) /
              (o.1 + (rest.map fun o => o.1).sum) := by
          have := congrArg Prod.snd h'
          simpa using this
        simp only [Option.map_some', List.map_cons, List.sum_cons]
        rw [hv]

/-- Witness for C5: two committed buys of 1 BTC at prices 2 then 4 from the
initial ledger leave the average cost at the volume-weighted average
`(1*2 + 1*4) / (1 + 1) = 3`. -/
theorem buy_averageCost_weighted_witness :
    allCommitted btcSymbol [(1, 2, 1000), (1, 4, 2000)] initialState ∧
    ((runBuys btcSymbol [(1, 2, 1000), (1, 4, 2000)]
        initialState).portfolio.find? (isSym btcSymbol)).map
        PortfolioItem.averagePrice =
      some (((([(1, 2, 1000), (1, 4, 2000)] : List (ℚ × ℚ × ℤ)).map
          fun o => o.1 * o.2.1).sum /
        (([(1, 2, 1000), (1, 4, 2000)] : List (ℚ × ℚ × ℤ)).map
          fun o => o.1).sum)) := by
  refine ⟨by with_unfolding_all decide, ?_⟩
  exact buy_averageCost_weighted.2 btcSymbol [(1, 2, 1000), (1, 4, 2000)]
    initialState (by with_unfolding_all decide) (by with_unfolding_all rfl)
    (by with_unfolding_all decide) (by with_unfolding_all decide) (by simp)

/-! ## Claim C6: sells leave the average cost alone; full sales keep history -/

/-- C6: for a committed sell of a (non-cash) asset held in a single row:
a partial sale (`amount` below the holding) only reduces the amount and
appends the transaction — `averageCost` is untouched; a sale of the entire
holding removes the row from the active set and replaces it with a
zero-amount record that preserves the asset's transaction history (with the
sale appended). -/
theorem sell_averageCost_untouched_full_sale_keeps_history
    (s : String) (a pr : ℚ) (now : ℤ) (st : LedgerState)
    (itm : PortfolioItem) (hs : ¬ s = usdSymbol)
    (hfind : st.portfolio.find? (isSym s) = some itm)
    (huniq : st.portfolio.countP (isSym s) ≤ 1)
    (hcomm : (executeOrder .sell s a pr now st).2 = ExecResult.committed) :
    (¬ itm.amount = a →
      (executeOrder .sell s a pr now st).1.portfolio.find? (isSym s) =
        some ⟨itm.symbol, itm.name, itm.amount - a, itm.averagePrice,
          itm.transactions ++ [⟨.sell, s, a, pr, now⟩]⟩) ∧
    (itm.amount = a →
      (executeOrder .sell s a pr now st).1.portfolio.find? (isSym s) =
        some ⟨s, s, 0, 0,
          itm.transactions ++ [⟨.sell, s, a, pr, now⟩]⟩) := by
  have hport := (sell_committed hcomm).1
  have hfind1 : (modifyFirst (isSym usdSymbol)
      (fun it => { it with amount := it.amount + a * pr,
                           transactions :=
                             it.transactions ++ [⟨.sell, s, a, pr, now⟩] })
        st.portfolio).find? (isSym s) = some itm := by
    rw [find?_modifyFirst_of_ne (isSym s) (isSym usdSymbol) _
      (isSym_ne_of_usd hs) (fun x => by simp [isSym]) st.portfolio]
    exact hfind
  constructor
  · intro hpart
    rw [hport, sellUpdate_eq_reduced s a pr ⟨.sell, s, a, pr, now⟩
      st.portfolio itm hfind1 hpart]
    rw [find?_modifyFirst_self (isSym s) _ (fun x => by simp [isSym]) _,
      hfind1]
    rfl
  · intro hfull
    rw [hport, sellUpdate_eq_full s a pr ⟨.sell, s, a, pr, now⟩
      st.portfolio itm hfind1 hfull]
    have hcount : (modifyFirst (isSym usdSymbol)
        (fun it => { it with amount := it.amount + a * pr,
                             transactions :=
                               it.transactions ++ [⟨.sell, s, a, pr, now⟩] })
          st.portfolio).countP (isSym s) ≤ 1 := by
      rw [countP_modifyFirst (isSym s) (isSym usdSymbol) _
        (fun x => by simp [isSym]) st.portfolio]
      exact huniq
    have herase := find?_eraseFirst_self (isSym s) _ hcount
    rw [find?_append_left_none _ _ _ herase,
      List.find?_cons_of_pos _ (by simp [isSym])]

/-- Witness for C6: from a ledger holding 1 BTC at average cost 2, a
committed sell of 0.5 BTC at price 4 leaves a 0.5-BTC row with the average
cost still 2. -/
theorem sell_averageCost_untouched_witness :
    (executeOrder .sell btcSymbol (mkRat 1 2) 4 1000
        ⟨[⟨usdSymbol, usdName, 10000, 1, []⟩,
          ⟨btcSymbol, btcSymbol, 1, 2, []⟩], 0, []⟩).2 =
      ExecResult.committed ∧
    (executeOrder .sell btcSymbol (mkRat 1 2) 4 1000
        ⟨[⟨usdSymbol, usdName, 10000, 1, []⟩,
          ⟨btcSymbol, btcSymbol, 1, 2, []⟩], 0, []⟩).1.portfolio.find?
        (isSym btcSymbol) =
      some ⟨btcSymbol, btcSymbol, 1 - mkRat 1 2, 2,
        [] ++ [⟨.sell, btcSymbol, mkRat 1 2, 4, 1000⟩]⟩ := by
  refine ⟨by with_unfolding_all rfl, ?_⟩
  exact (sell_averageCost_untouched_full_sale_keeps_history btcSymbol
    (mkRat 1 2) 4 1000
    ⟨[⟨usdSymbol, usdName, 10000, 1, []⟩,
      ⟨btcSymbol, btcSymbol, 1, 2, []⟩], 0, []⟩
    ⟨btcSymbol, btcSymbol, 1, 2, []⟩
    (by with_unfolding_all decide) (by with_unfolding_all rfl)
    (by with_unfolding_all decide) (by with_unfolding_all rfl)).1
    (by with_unfolding_all decide)

/-! ## Claim C8: the transaction-id de-duplication -/

theorem logGet_logSet (l : List (String × LogEntry)) (k : String)
    (v : LogEntry) : logGet (logSet l k v) k = some v := by
  simp [logGet, logSet, List.find?_cons_of_pos]

theorem committed_log {ty : OrderType} {s : String} {a pr : ℚ} {now : ℤ}
    {st : LedgerState}
    (h : (executeOrder ty s a pr now st).2 = ExecResult.committed) :
    (executeOrder ty s a pr now st).1.transactionLog =
      logSet (logSet st.transactionLog (txKey ty s a pr now) ⟨now, false⟩)
        (txKey ty s a pr now) ⟨now, true⟩ := by
  cases ty <;>
    (unfold executeOrder at h ⊢
     split_ifs at h ⊢ <;> simp_all <;> split_ifs at h ⊢ <;> simp_all)

/-- C8 counterexample: the duplicate key embeds the millisecond timestamp,
so the same order — buy 1 BTC at 2 — resubmitted one second later (well
inside the five-second retention window of the log and past the 500 ms rate
gate) carries a different key, passes the duplicate check, and is applied a
second time: cash drops from 10000 to 9996 instead of 9998. -/
theorem duplicate_order_applies_twice :
    (executeOrder .buy btcSymbol 1 2 1000 initialState).2 =
      ExecResult.committed ∧
    (executeOrder .buy btcSymbol 1 2 2000
        (executeOrder .buy btcSymbol 1 2 1000 initialState).1).2 =
      ExecResult.committed ∧
    usdAmount (executeOrder .buy btcSymbol 1 2 2000
        (executeOrder .buy btcSymbol 1 2 1000 initialState).1).1.portfolio =
      9996 ∧
    (2000 : ℤ) - 1000 < 5000 :=
  ⟨by with_unfolding_all rfl, by with_unfolding_all rfl,
   by with_unfolding_all rfl, by decide⟩

theorem duplicate_refused_of_processed (ty : OrderType) (s : String)
    (a pr : ℚ) (now : ℤ) (st2 : LedgerState)
    (hrate : ¬ now - st2.lastTransaction < 500)
    (hfunds : ty = OrderType.buy → ¬ a * pr > usdAmount st2.portfolio)
    (hsell : ty = OrderType.sell → ¬ a > symAmount s st2.portfolio)
    (hdup : ((logGet st2.transactionLog (txKey ty s a pr now)).map
      LogEntry.processed).getD false = true) :
    executeOrder ty s a pr now st2 = (st2, ExecResult.duplicate) := by
  unfold executeOrder
  rw [if_neg hrate]
  cases ty with
  | buy =>
    rw [if_neg (fun hc => hfunds rfl hc.2)]
    rw [if_neg (fun hc => OrderType.noConfusion hc.1)]
    rw [if_pos hdup]
  | sell =>
    rw [if_neg (fun hc => OrderType.noConfusion hc.1)]
    rw [if_neg (fun hc => hsell rfl hc.2)]
    rw [if_pos hdup]

/-- C8 (amended): the duplicate check refuses a key it has already
processed, and the key embeds the order's millisecond timestamp.  So a
resubmission of the same order is refused by the key check exactly when it
carries the same `Date.now()` value (as when a second hook instance with
its own rate-limit ref replays the same tick): then the call returns with
the ledger unchanged.  A resubmission at a different millisecond gets a
fresh key and is stopped only by the 500 ms rate gate — past that it is
applied again, as the counterexample shows. -/
theorem duplicate_same_timestamp_refused
    (ty : OrderType) (s : String) (a pr : ℚ) (now lt' : ℤ)
    (st : LedgerState)
    (hcomm : (executeOrder ty s a pr now st).2 = ExecResult.committed)
    (hrate : ¬ now - lt' < 500)
    (hfunds : ty = OrderType.buy →
      ¬ a * pr > usdAmount (executeOrder ty s a pr now st).1.portfolio)
    (hsell : ty = OrderType.sell →
      ¬ a > symAmount s (executeOrder ty s a pr now st).1.portfolio) :
    executeOrder ty s a pr now
        ⟨(executeOrder ty s a pr now st).1.portfolio, lt',
          (executeOrder ty s a pr now st).1.transactionLog⟩ =
      (⟨(executeOrder ty s a pr now st).1.portfolio, lt',
          (executeOrder ty s a pr now st).1.transactionLog⟩,
       ExecResult.duplicate) := by
  have hlog := committed_log hcomm
  apply duplicate_refused_of_processed
  · exact hrate
  · exact hfunds
  · exact hsell
  · show ((logGet (executeOrder ty s a pr now st).1.transactionLog
      (txKey ty s a pr now)).map LogEntry.processed).getD false = true
    rw [hlog, logGet_logSet]
    rfl

/-- Witness for the amended C8: the committed buy of 1 BTC at 2 at
t = 1000, replayed with the same timestamp from a fresh rate-limit ref
(`lastTransactionRef = 0`), is refused by the key check with the ledger
unchanged. -/
theorem duplicate_same_timestamp_refused_witness :
    (executeOrder .buy btcSymbol 1 2 1000 initialState).2 =
      ExecResult.committed ∧
    executeOrder .buy btcSymbol 1 2 1000
        ⟨(executeOrder .buy btcSymbol 1 2 1000 initialState).1.portfolio, 0,
          (executeOrder .buy btcSymbol 1 2 1000
            initialState).1.transactionLog⟩ =
      (⟨(executeOrder .buy btcSymbol 1 2 1000 initialState).1.portfolio, 0,
          (executeOrder .buy btcSymbol 1 2 1000
            initialState).1.transactionLog⟩,
       ExecResult.duplicate) := by
  refine ⟨by with_unfolding_all rfl, ?_⟩
  exact duplicate_same_timestamp_refused .buy btcSymbol 1 2 1000 0
    initialState (by with_unfolding_all rfl) (by decide)
    (fun _ => by with_unfolding_all decide)
    (fun hc => OrderType.noConfusion hc)

/-! ## Claim C10: the 500 ms spacing -/

/-- C10 counterexample: the spacing gate compares against
`lastTransactionRef`, which only a call that passes the gate (and the
balance and duplicate checks) updates — not against the previous call.
After a commit at t = 1000, a call at t = 1300 is refused and leaves the
ref at 1000, so a call at t = 1600 — only 300 ms after the previous call —
passes the gate and commits, changing the portfolio. -/
theorem second_call_within_500ms_can_commit :
    (executeOrder .buy btcSymbol 1 2 1000 initialState).2 =
      ExecResult.committed ∧
    (executeOrder .buy btcSymbol 1 2 1300
        (executeOrder .buy btcSymbol 1 2 1000 initialState).1).2 =
      ExecResult.rateLimited ∧
    (executeOrder .buy btcSymbol 1 2 1600
        (executeOrder .buy btcSymbol 1 2 1300
          (executeOrder .buy btcSymbol 1 2 1000 initialState).1).1).2 =
      ExecResult.committed ∧
    ¬ (executeOrder .buy btcSymbol 1 2 1600
        (executeOrder .buy btcSymbol 1 2 1300
          (executeOrder .buy btcSymbol 1 2 1000 initialState).1).1).1.portfolio =
      (executeOrder .buy btcSymbol 1 2 1300
        (executeOrder .buy btcSymbol 1 2 1000 initialState).1).1.portfolio ∧
    (1600 : ℤ) - 1300 < 500 :=
  ⟨by with_unfolding_all rfl, by with_unfolding_all rfl,
   by with_unfolding_all rfl, by with_unfolding_all decide, by decide⟩

/-- C10 (amended): the 500 ms minimum spacing is enforced against
`lastTransactionRef` — the time of the last call that got past the gate and
the balance/duplicate checks — not against the immediately preceding call:
a call less than 500 ms after that ref returns with the whole state
unchanged, and a committed call both requires 500 ms since the ref and sets
it to its own time, so consecutive *committed* transactions are at least
500 ms apart. -/
theorem rate_gate_spec (ty : OrderType) (s : String) (a pr : ℚ) (now : ℤ)
    (st : LedgerState) :
    (now - st.lastTransaction < 500 →
      executeOrder ty s a pr now st = (st, ExecResult.rateLimited)) ∧
    ((executeOrder ty s a pr now st).2 = ExecResult.committed →
      ¬ now - st.lastTransaction < 500 ∧
      (executeOrder ty s a pr now st).1.lastTransaction = now) := by
  constructor
  · intro h
    exact executeOrder_rateLimited h
  · intro h
    cases ty with
    | buy => exact ⟨(buy_committed h).2.2.2.2, (buy_committed h).2.1⟩
    | sell => exact ⟨(sell_committed h).2.2.2.2.2, (sell_committed h).2.2.1⟩

/-- Witness for the amended C10: a call 300 ms after a committed one is
refused with the state unchanged, and the committed call at t = 1000 from
the fresh ledger indeed ran at least 500 ms past the ref and set it. -/
theorem rate_gate_spec_witness :
    (1300 : ℤ) - (executeOrder .buy btcSymbol 1 2 1000
        initialState).1.lastTransaction < 500 ∧
    executeOrder .buy btcSymbol 1 2 1300
        (executeOrder .buy btcSymbol 1 2 1000 initialState).1 =
      ((executeOrder .buy btcSymbol 1 2 1000 initialState).1,
        ExecResult.rateLimited) ∧
    (executeOrder .buy btcSymbol 1 2 1000 initialState).1.lastTransaction =
      1000 := by
  refine ⟨by with_unfolding_all decide, ?_, ?_⟩
  · exact (rate_gate_spec .buy btcSymbol 1 2 1300
      (executeOrder .buy btcSymbol 1 2 1000 initialState).1).1
      (by with_unfolding_all decide)
  · exact (rate_gate_spec .buy btcSymbol 1 2 1000 initialState).2
      (by with_unfolding_all rfl) |>.2

end CryptoSim
